import Mathlib

/-!
A shallow embedding of the core circuit-construction logic of the
QuantumFlow backend (`app/qiskit_runner.py`): the angle resolver
`_get_angle`, the gate normalizer `_apply_gate`, the column grouping and
ordering used by `run_circuit` and `get_state_evolution`, and the
post-processing of engine counts and per-shot memory.

Conventions of the embedding:
* Python floats are modelled as exact numbers: raw parameter and position
  values as rationals, resolved angles as real numbers (`math.pi` becomes
  `Real.pi`).
* The simulation engine is opaque (per the repository design): a circuit is
  modelled as the list of gate applications appended to it, and a
  state-vector snapshot is identified with the list of gate applications
  that produced it.  Engine-reported counts and per-shot memory are inputs
  to the post-processing functions.
* Python exceptions are modelled with `Except String`.  `qc.h(None)` and
  friends raise inside the engine (qiskit rejects a `None` qubit
  specifier); this is modelled as an error result of the gate application.
* Python `/` raises `ZeroDivisionError`; the embedding of the probability
  normalization guards the executed divisions accordingly.
-/

namespace QuantumFlow

/-- A raw parameter value as it appears in a `GateRecord.params` mapping:
Python `float | int | str` (ints and floats both modelled as `ℚ`). -/
inductive PValue where
  | num (q : ℚ)
  | str (s : String)
deriving DecidableEq

/-- A raw `position` value: a Python `int`, or a non-integer number (e.g. a
float) that can reach the runner when it is called directly with plain
dictionaries.  Python dictionaries compare numeric keys by value, so column
keys are compared through `PosVal.val`. -/
inductive PosVal where
  | pint (n : ℤ)
  | pfloat (q : ℚ)
deriving DecidableEq

/-- Numeric value of a position (Python compares `int` and `float` keys
numerically, and `sorted` orders them numerically). -/
def PosVal.val : PosVal → ℚ
  | .pint n => (n : ℚ)
  | .pfloat q => q

/-- The raw input unit: one loosely-typed gate record (the dictionaries
passed to `_apply_gate`, shaped like `app/models.py`'s `GateModel`). -/
structure GateRecord where
  type : String
  qubit : Option ℤ := none
  position : Option PosVal := none
  params : List (String × PValue) := []
  targets : List ℤ := []
  controls : List ℤ := []
deriving DecidableEq

/-- One concrete gate application appended to the circuit (`qc.h(q)`,
`qc.rx(angle, q)`, ...). -/
inductive GateOp where
  | h (q : ℤ)
  | x (q : ℤ)
  | y (q : ℤ)
  | z (q : ℤ)
  | s (q : ℤ)
  | t (q : ℤ)
  | rx (a : ℝ) (q : ℤ)
  | ry (a : ℝ) (q : ℤ)
  | rz (a : ℝ) (q : ℤ)
  | p (a : ℝ) (q : ℤ)
  | cx (c t : ℤ)
  | cz (c t : ℤ)
  | swap (a b : ℤ)
  | ccx (c1 c2 t : ℤ)

/-- Python truthiness on raw parameter values: `0`, `0.0` and `""` are
falsy, everything else is truthy. -/
def py_truthy : PValue → Bool
  | .num q => q != 0
  | .str s => s != ""

/-- Python `a or b` where `a` is the result of a `dict.get` (possibly
`None`): yields `a` when `a` is present and truthy, else `b`. -/
def py_or (a : Option PValue) (b : PValue) : PValue :=
  match a with
  | none => b
  | some v => if py_truthy v then v else b

/-- `params.get(key)` on the params mapping. -/
def dict_get (ps : List (String × PValue)) (key : String) : Option PValue :=
  (ps.find? (fun kv => kv.1 == key)).map (fun kv => kv.2)

/-- Value of a list of decimal digit characters. -/
def digits_val (cs : List Char) : ℕ :=
  cs.foldl (fun a c => 10 * a + (c.toNat - 48)) 0

/-- Modelled from the Python builtin `float(str)` on plain decimal
literals: an optional sign followed by digits with an optional decimal
point (`"3"`, `"1.5"`, `".5"`, `"2."`).  Exotic accepted forms (exponents,
`"inf"`, `"nan"`, surrounding whitespace) are not needed by any claim and
are left out; every string rejected here is a parse failure. -/
def float_of_chars (cs : List Char) : Option ℚ :=
  match cs.splitOn '.' with
  | [ip] =>
      if ip ≠ [] ∧ ip.all Char.isDigit then some (digits_val ip) else none
  | [ip, fp] =>
      if (ip ≠ [] ∨ fp ≠ []) ∧ ip.all Char.isDigit ∧ fp.all Char.isDigit then
        some ((digits_val ip : ℚ) + (digits_val fp : ℚ) / 10 ^ fp.length)
      else none
  | _ => none

/-- Modelled from the Python builtin `float(str)`: handle the optional
leading sign. -/
def float_of_string (s : String) : Option ℚ :=
  match s.toList with
  | '+' :: rest => float_of_chars rest
  | '-' :: rest => (float_of_chars rest).map (fun q => -q)
  | cs => float_of_chars cs

/-- `float(value)` applied to a raw parameter value; `none` models the
conversion raising. -/
def py_float : PValue → Option ℚ
  | .num q => some q
  | .str s => float_of_string s

open Classical in
/-- The radians/degrees heuristic of `_get_angle`: a magnitude of at most
`2π` is already radians, anything larger is degrees. -/
noncomputable def rad_heuristic (q : ℚ) : ℝ :=
  if |(q : ℝ)| ≤ 2 * Real.pi then (q : ℝ) else (q : ℝ) * Real.pi / 180

/-- `_get_angle` from `app/qiskit_runner.py`: parse the scalar-like value
as a real number (raising `ValueError` on failure), then apply the
radians/degrees heuristic. -/
noncomputable def get_angle (v : PValue) : Except String ℝ :=
  match py_float v with
  | none => .error "Invalid angle value"
  | some q => .ok (rad_heuristic q)

/-- The `theta`-style angle chain used by `rx`/`ry`:
`params.get("theta") or params.get("angle") or 0`. -/
def theta_chain (ps : List (String × PValue)) : PValue :=
  py_or (dict_get ps "theta") (py_or (dict_get ps "angle") (.num 0))

/-- The `phi`-style angle chain used by `rz`/`p`:
`params.get("phi") or params.get("lambda") or params.get("angle") or 0`. -/
def phi_chain (ps : List (String × PValue)) : PValue :=
  py_or (dict_get ps "phi")
    (py_or (dict_get ps "lambda") (py_or (dict_get ps "angle") (.num 0)))

/-- A parameterless single-qubit application `qc.h(qubit)` etc.; qiskit
raises when the qubit specifier is `None`, modelled as an error. -/
def one_qubit (mk : ℤ → GateOp) (qubit : Option ℤ) :
    Except String (List GateOp) :=
  match qubit with
  | some q => .ok [mk q]
  | none => .error "Index out of range"

/-- A rotation application `qc.rx(angle, qubit)` etc.: the angle is
resolved first (`_get_angle` may raise), then the qubit is bound. -/
noncomputable def rotation (mk : ℝ → ℤ → GateOp) (raw : PValue)
    (qubit : Option ℤ) : Except String (List GateOp) :=
  match get_angle raw with
  | .error e => .error e
  | .ok a =>
      match qubit with
      | some q => .ok [mk a q]
      | none => .error "Index out of range"

/-- `_apply_gate` from `app/qiskit_runner.py`, returning the list of gate
applications appended to the circuit (`[]` for the silent no-op branch). -/
noncomputable def apply_gate (g : GateRecord) : Except String (List GateOp) :=
  let gtype := g.type
  let qubit := g.qubit
  let params := g.params
  let targets := g.targets
  let controls := g.controls
  if gtype = "h" then one_qubit .h qubit
  else if gtype = "x" then one_qubit .x qubit
  else if gtype = "y" then one_qubit .y qubit
  else if gtype = "z" then one_qubit .z qubit
  else if gtype = "s" then one_qubit .s qubit
  else if gtype = "t" then one_qubit .t qubit
  else if gtype = "rx" then rotation .rx (theta_chain params) qubit
  else if gtype = "ry" then rotation .ry (theta_chain params) qubit
  else if gtype = "rz" then rotation .rz (phi_chain params) qubit
  else if gtype = "p" then rotation .p (phi_chain params) qubit
  else if gtype = "cnot" ∨ gtype = "cx" then
    match (match qubit with | some q => some q | none => controls.head?),
        targets.head? with
    | some c, some t => .ok [.cx c t]
    | _, _ => .error "CNOT requires control (qubit/controls[0]) and targets[0]"
  else if gtype = "cz" then
    match (match qubit with | some q => some q | none => controls.head?),
        targets.head? with
    | some c, some t => .ok [.cz c t]
    | _, _ => .error "CZ requires control and target"
  else if gtype = "swap" then
    match (match qubit with | some q => some q | none => targets.head?),
        (match targets.head? with | some t => some t | none => controls.head?) with
    | some a, some b => .ok [.swap a b]
    | _, _ =>
        .error "SWAP requires two qubits (qubit & targets[0] or targets[0] & controls[0])"
  else if gtype = "toffoli" ∨ gtype = "ccx" then
    match controls, targets with
    | c0 :: c1 :: _, t0 :: _ => .ok [.ccx c0 c1 t0]
    | _, _ => .error "Toffoli requires controls[0], controls[1], targets[0]"
  else
    .ok []

/-! ### `run_circuit`: sorting, circuit build, counts post-processing -/

/-- The sort key used by `run_circuit`:
`p if isinstance(p, int) else 0` — an absent or non-integer position sorts
as `0`. -/
def sort_key (g : GateRecord) : ℚ :=
  match g.position with
  | some (.pint n) => (n : ℚ)
  | _ => 0

/-- `sorted(gates, key=sort_key)`: Python's `sorted` is a stable merge
sort by key. -/
def sorted_gates (gates : List GateRecord) : List GateRecord :=
  gates.mergeSort (fun a b => decide (sort_key a ≤ sort_key b))

/-- The gate-application loop of `run_circuit`: apply every gate in sorted
order, aborting on the first normalization failure (no per-gate handler on
this path).  The result is the list of gate applications of the built
circuit. -/
noncomputable def build_circuit (gates : List GateRecord) :
    Except String (List GateOp) :=
  (sorted_gates gates).foldlM
    (fun acc g => (apply_gate g).map (fun ops => acc ++ ops)) []

/-- The divisor of the probability normalization:
`float(shots) if shots else sum(counts.values())`. -/
def prob_total (shots : ℕ) (counts : List (String × ℕ)) : ℚ :=
  if shots ≠ 0 then (shots : ℚ) else ((counts.map Prod.snd).sum : ℚ)

/-- The probability post-processing of `run_circuit`:
`{k: int(v)/total for k, v in counts.items()}`.  A zero divisor makes the
first executed division raise `ZeroDivisionError`, so the comprehension
fails exactly when the divisor is zero and `counts` is non-empty. -/
def probabilities (shots : ℕ) (counts : List (String × ℕ)) :
    Except String (List (String × ℚ)) :=
  let total := prob_total shots counts
  if total = 0 ∧ counts ≠ [] then .error "ZeroDivisionError: division by zero"
  else .ok (counts.map (fun kv => (kv.1, (kv.2 : ℚ) / total)))

/-- The per-shot memory post-processing of `run_circuit`: when memory was
requested, `result.get_memory()` (an ordered list of per-shot bitstrings,
or `none` when the engine raises) is reduced to `mem[0]`; indexing an
empty list raises, which the surrounding handler turns into `None`.  The
`else mem` arm of the source is unreachable because `get_memory` returns a
list whenever it succeeds. -/
def memory_out (memory : Bool) (mem : Option (List String)) : Option String :=
  if memory then mem.bind List.head? else none

/-! ### `get_state_evolution`: column grouping and the snapshot walk -/

/-- The column key of a gate record in `get_state_evolution`: only an
absent position defaults to `0`; any present value is used as the
`defaultdict` key (numeric keys compare by value in a Python dict). -/
def evo_key (g : GateRecord) : ℚ :=
  match g.position with
  | none => 0
  | some v => v.val

/-- `sorted(columns.keys())`: the distinct occupied column keys in
ascending order. -/
def evo_columns (gates : List GateRecord) : List ℚ :=
  ((gates.map evo_key).dedup).mergeSort (fun a b => decide (a ≤ b))

/-- `columns[k]`: the gates of one column, in their original input order
(`defaultdict(list)` appends in iteration order). -/
def column_gates (gates : List GateRecord) (k : ℚ) : List GateRecord :=
  gates.filter (fun g => decide (evo_key g = k))

/-- The inner loop of `get_state_evolution`: apply every gate of a column
to the circuit, skipping (with a logged warning) any gate whose
normalization fails. -/
noncomputable def apply_column (qc : List GateOp) (col : List GateRecord) :
    List GateOp :=
  col.foldl
    (fun acc g => match apply_gate g with | .ok ops => acc ++ ops | .error _ => acc)
    qc

/-- `get_state_evolution` from `app/qiskit_runner.py`: group the gates
into columns, capture the initial pre-gate snapshot, then walk the columns
in ascending key order appending one snapshot after each column.  A
snapshot is identified with the list of gate applications that produced it
(the engine's state-vector computation is opaque and modelled as always
succeeding).  The qubit count only sizes the engine state and does not
affect the walk. -/
noncomputable def get_state_evolution (num_qubits : ℕ)
    (gates : List GateRecord) : List (List GateOp) :=
  let _ := num_qubits
  ((evo_columns gates).foldl
    (fun st k =>
      let qc := apply_column st.1 (column_gates gates k)
      (qc, st.2 ++ [qc]))
    (([] : List GateOp), [([] : List GateOp)])).2

/-- The order in which `get_state_evolution` feeds gate records to
`_apply_gate`: the columns in ascending key order, each in original input
order. -/
def evolution_order (gates : List GateRecord) : List GateRecord :=
  (evo_columns gates).flatMap (column_gates gates)

/-! ### Column grouping as specified, and its relation to stable sorting -/

/-- Modelled from the spec's Column Builder wording: the distinct column
keys, in ascending order. -/
def sorted_keys (ks : List ℚ) : List ℚ :=
  ks.dedup.mergeSort (fun a b => decide (a ≤ b))

/-- Modelled from the spec's Column Builder wording: the records grouped
into columns keyed by `key`, columns in ascending key order, each column
keeping the records' original input order. -/
def grouped_order (key : GateRecord → ℚ) (gates : List GateRecord) :
    List GateRecord :=
  (sorted_keys (gates.map key)).flatMap
    (fun k => gates.filter (fun g => decide (key g = k)))

lemma sorted_keys_nodup (ks : List ℚ) : (sorted_keys ks).Nodup :=
  (List.mergeSort_perm ks.dedup _).symm.nodup (List.nodup_dedup ks)

lemma sorted_keys_sorted (ks : List ℚ) : (sorted_keys ks).Pairwise (· ≤ ·) := by
  have h := @List.sorted_mergeSort ℚ (fun a b : ℚ => decide (a ≤ b))
    (fun a b c hab hbc => by
      simp only [decide_eq_true_eq] at *
      exact le_trans hab hbc)
    (fun a b => by
      by_cases h : a ≤ b
      · simp [h]
      · simp [le_of_not_le h])
    ks.dedup
  exact h.imp (fun hab => of_decide_eq_true hab)

lemma sorted_keys_strict (ks : List ℚ) : (sorted_keys ks).Pairwise (· < ·) :=
  ((sorted_keys_sorted ks).and (sorted_keys_nodup ks)).imp
    (fun hab => lt_of_le_of_ne hab.1 hab.2)

lemma mem_sorted_keys {a : ℚ} {ks : List ℚ} : a ∈ sorted_keys ks ↔ a ∈ ks := by
  simp [sorted_keys, List.mem_dedup]

/-- Stability of the stable merge sort used to embed Python's `sorted`,
characterized through filters: the records of any one column appear in the
sorted list exactly as they appear in the input. -/
lemma filter_key_mergeSort (key : GateRecord → ℚ) (gates : List GateRecord)
    (k : ℚ) :
    (gates.mergeSort (fun a b => decide (key a ≤ key b))).filter
        (fun g => decide (key g = k)) =
      gates.filter (fun g => decide (key g = k)) := by
  have htrans : ∀ a b c : GateRecord, decide (key a ≤ key b) →
      decide (key b ≤ key c) → decide (key a ≤ key c) := by
    intro a b c hab hbc
    simp only [decide_eq_true_eq] at *
    exact le_trans hab hbc
  have htotal : ∀ a b : GateRecord,
      decide (key a ≤ key b) || decide (key b ≤ key a) := by
    intro a b
    by_cases h : key a ≤ key b
    · simp [h]
    · simp [le_of_not_le h]
  have hc : (gates.filter (fun g => decide (key g = k))).Pairwise
      (fun a b => decide (key a ≤ key b) = true) := by
    apply List.pairwise_of_forall_mem_list
    intro a ha b hb
    have ha' := (List.mem_filter.mp ha).2
    have hb' := (List.mem_filter.mp hb).2
    simp only [decide_eq_true_eq] at ha' hb' ⊢
    rw [ha', hb']
  have hsub : List.Sublist (gates.filter (fun g => decide (key g = k)))
      (gates.mergeSort (fun a b => decide (key a ≤ key b))) :=
    List.sublist_mergeSort htrans htotal hc (List.filter_sublist gates)
  have hsub2 : List.Sublist (gates.filter (fun g => decide (key g = k)))
      ((gates.mergeSort (fun a b => decide (key a ≤ key b))).filter
        (fun g => decide (key g = k))) := by
    have h := hsub.filter (fun g => decide (key g = k))
    rwa [List.filter_filter, show
        (fun a => decide (key a = k) && decide (key a = k)) =
          (fun a => decide (key a = k)) from funext (fun a => Bool.and_self _)]
      at h
  have hperm := (List.mergeSort_perm gates
    (fun a b => decide (key a ≤ key b))).filter (fun g => decide (key g = k))
  exact (hsub2.eq_of_length hperm.length_eq.symm).symm

/-- A list sorted by key is determined by its per-key filters: the
uniqueness of stable sorting. -/
lemma eq_of_sorted_key_of_filter_eq (key : GateRecord → ℚ)
    (l₁ : List GateRecord) :
    ∀ l₂ : List GateRecord,
      l₁.Pairwise (fun a b => key a ≤ key b) →
      l₂.Pairwise (fun a b => key a ≤ key b) →
      (∀ k, l₁.filter (fun g => decide (key g = k)) =
            l₂.filter (fun g => decide (key g = k))) →
      l₁ = l₂ := by
  induction l₁ with
  | nil =>
      intro l₂ _ _ hf
      cases l₂ with
      | nil => rfl
      | cons b t₂ =>
          exfalso
          have hb : b ∈ (b :: t₂).filter (fun g => decide (key g = key b)) :=
            List.mem_filter.mpr ⟨List.mem_cons_self _ _, by simp⟩
          rw [← hf (key b), List.filter_nil] at hb
          exact absurd hb (List.not_mem_nil b)
  | cons a t₁ ih =>
      intro l₂ h₁ h₂ hf
      cases l₂ with
      | nil =>
          exfalso
          have ha : a ∈ (a :: t₁).filter (fun g => decide (key g = key a)) :=
            List.mem_filter.mpr ⟨List.mem_cons_self _ _, by simp⟩
          rw [hf (key a), List.filter_nil] at ha
          exact absurd ha (List.not_mem_nil a)
      | cons b t₂ =>
          have hmem_ab : a ∈ b :: t₂ := by
            have ha : a ∈ (b :: t₂).filter (fun g => decide (key g = key a)) := by
              rw [← hf (key a)]
              exact List.mem_filter.mpr ⟨List.mem_cons_self _ _, by simp⟩
            exact (List.mem_filter.mp ha).1
          have hmem_ba : b ∈ a :: t₁ := by
            have hb : b ∈ (a :: t₁).filter (fun g => decide (key g = key b)) := by
              rw [hf (key b)]
              exact List.mem_filter.mpr ⟨List.mem_cons_self _ _, by simp⟩
            exact (List.mem_filter.mp hb).1
          have hkey : key a = key b := by
            rcases List.mem_cons.mp hmem_ab with h | h
            · rw [h]
            · rcases List.mem_cons.mp hmem_ba with h' | h'
              · rw [h']
              · exact le_antisymm (List.rel_of_pairwise_cons h₁ h')
                  (List.rel_of_pairwise_cons h₂ h)
          have hcons := hf (key a)
          rw [List.filter_cons_of_pos (by simp),
            List.filter_cons_of_pos (by simp [hkey])] at hcons
          have hab : a = b := (List.cons_eq_cons.mp hcons).1
          have htails : ∀ k, t₁.filter (fun g => decide (key g = k)) =
              t₂.filter (fun g => decide (key g = k)) := by
            intro k
            by_cases hk : key a = k
            · rw [← hk]
              exact (List.cons_eq_cons.mp hcons).2
            · have h := hf k
              rw [List.filter_cons_of_neg (by simpa using hk),
                List.filter_cons_of_neg (by simpa [← hkey] using hk)] at h
              exact h
          rw [hab, ih t₂ h₁.of_cons h₂.of_cons htails]

lemma grouped_order_sorted (key : GateRecord → ℚ) (gates : List GateRecord) :
    (grouped_order key gates).Pairwise (fun a b => key a ≤ key b) := by
  rw [grouped_order]
  apply List.pairwise_flatMap.mpr
  constructor
  · intro k _
    apply List.pairwise_of_forall_mem_list
    intro a ha b hb
    have ha' := (List.mem_filter.mp ha).2
    have hb' := (List.mem_filter.mp hb).2
    simp only [decide_eq_true_eq] at ha' hb'
    rw [ha', hb']
  · apply (sorted_keys_sorted (gates.map key)).imp
    intro k₁ k₂ h x hx y hy
    have hx' := (List.mem_filter.mp hx).2
    have hy' := (List.mem_filter.mp hy).2
    simp only [decide_eq_true_eq] at hx' hy'
    rw [hx', hy']
    exact h

lemma flatMap_ite_single (ks : List ℚ) (k : ℚ) (F : List GateRecord)
    (hnd : ks.Nodup) :
    (ks.flatMap (fun k' => if k' = k then F else [])) =
      if k ∈ ks then F else [] := by
  induction ks with
  | nil => simp
  | cons a t ih =>
      simp only [List.flatMap_cons]
      by_cases h : a = k
      · subst h
        rw [if_pos rfl, ih (List.nodup_cons.mp hnd).2,
          if_neg (List.nodup_cons.mp hnd).1, if_pos (List.mem_cons_self _ _)]
        simp
      · have hmem : (k ∈ a :: t) = (k ∈ t) := by
          simp only [List.mem_cons]
          exact propext ⟨fun hk => hk.resolve_left (fun he => h he.symm), Or.inr⟩
        rw [if_neg h, ih (List.nodup_cons.mp hnd).2, List.nil_append]
        exact if_congr (iff_of_eq hmem.symm) rfl rfl

lemma grouped_order_filter (key : GateRecord → ℚ) (gates : List GateRecord)
    (k : ℚ) :
    (grouped_order key gates).filter (fun g => decide (key g = k)) =
      gates.filter (fun g => decide (key g = k)) := by
  rw [grouped_order, List.filter_flatMap]
  have hblocks : (fun k' => (gates.filter
        (fun g => decide (key g = k'))).filter (fun g => decide (key g = k))) =
      (fun k' => if k' = k then gates.filter (fun g => decide (key g = k))
        else []) := by
    funext k'
    by_cases h : k' = k
    · subst h
      rw [if_pos rfl, List.filter_filter]
      congr 1
      funext a
      by_cases ha : key a = k' <;> simp [ha]
    · rw [if_neg h]
      apply List.filter_eq_nil_iff.mpr
      intro a ha
      have ha' := (List.mem_filter.mp ha).2
      simp only [decide_eq_true_eq] at ha' ⊢
      rw [ha']
      exact h
  rw [hblocks, flatMap_ite_single _ _ _ (sorted_keys_nodup _)]
  by_cases hk : k ∈ sorted_keys (gates.map key)
  · rw [if_pos hk]
  · rw [if_neg hk]
    symm
    apply List.filter_eq_nil_iff.mpr
    intro a ha
    simp only [decide_eq_true_eq]
    intro hak
    exact hk (mem_sorted_keys.mpr (hak ▸ List.mem_map_of_mem key ha))

/-- Python's stable sort by key coincides with grouping the records into
columns and concatenating the columns in ascending key order. -/
lemma mergeSort_key_eq_grouped_order (key : GateRecord → ℚ)
    (gates : List GateRecord) :
    gates.mergeSort (fun a b => decide (key a ≤ key b)) =
      grouped_order key gates := by
  apply eq_of_sorted_key_of_filter_eq key
  · have h := @List.sorted_mergeSort GateRecord
      (fun a b : GateRecord => decide (key a ≤ key b))
      (fun a b c hab hbc => by
        simp only [decide_eq_true_eq] at *
        exact le_trans hab hbc)
      (fun a b => by
        by_cases h : key a ≤ key b
        · simp [h]
        · simp [le_of_not_le h])
      gates
    exact h.imp (fun hab => of_decide_eq_true hab)
  · exact grouped_order_sorted key gates
  · intro k
    rw [filter_key_mergeSort, grouped_order_filter]

/-! ### The snapshot walk, characterized -/

/-- The gate applications contributed by the gates of a record list that
normalize successfully; a gate whose normalization fails contributes
nothing (it is skipped). -/
noncomputable def applied_ops (col : List GateRecord) : List GateOp :=
  col.flatMap
    (fun g => match apply_gate g with | .ok ops => ops | .error _ => [])

lemma applied_ops_append (l₁ l₂ : List GateRecord) :
    applied_ops (l₁ ++ l₂) = applied_ops l₁ ++ applied_ops l₂ := by
  simp [applied_ops]

lemma apply_column_eq (col : List GateRecord) :
    ∀ qc, apply_column qc col = qc ++ applied_ops col := by
  induction col with
  | nil => intro qc; simp [apply_column, applied_ops]
  | cons g t ih =>
      intro qc
      cases hg : apply_gate g with
      | ok ops =>
          have h1 : apply_column qc (g :: t) = apply_column (qc ++ ops) t := by
            simp [apply_column, hg]
          rw [h1, ih]
          simp [applied_ops, hg, List.append_assoc]
      | error e =>
          have h1 : apply_column qc (g :: t) = apply_column qc t := by
            simp [apply_column, hg]
          rw [h1, ih]
          simp [applied_ops, hg]

lemma evo_foldl_snapshots (gates : List GateRecord) :
    ∀ (ks : List ℚ) (qc : List GateOp) (snaps : List (List GateOp)),
      (ks.foldl (fun st k =>
          let q := apply_column st.1 (column_gates gates k)
          (q, st.2 ++ [q])) (qc, snaps)).2 =
        snaps ++ (List.range ks.length).map (fun i =>
          qc ++ applied_ops ((ks.take (i + 1)).flatMap (column_gates gates))) := by
  intro ks
  induction ks with
  | nil => intro qc snaps; simp
  | cons k t ih =>
      intro qc snaps
      simp only [List.foldl_cons]
      rw [ih, apply_column_eq]
      rw [List.length_cons, List.range_succ_eq_map, List.map_cons, List.map_map]
      rw [List.append_assoc, List.singleton_append]
      congr 1
      congr 1
      · simp [List.take_succ_cons, List.take_zero, List.flatMap_cons,
          List.flatMap_nil, List.append_nil]
      · apply List.map_congr_left
        intro i _
        simp [Function.comp, List.take_succ_cons, List.flatMap_cons,
          applied_ops_append, List.append_assoc]

/-- Modelled from the spec's Evolution Walker wording: snapshot `i` is the
state produced by the successfully-applied gates of the first `i` columns
(snapshot `0` is the initial pre-gate state). -/
noncomputable def snapshots_spec (gates : List GateRecord) :
    List (List GateOp) :=
  (List.range ((evo_columns gates).length + 1)).map (fun i =>
    applied_ops (((evo_columns gates).take i).flatMap (column_gates gates)))

lemma get_state_evolution_eq (n : ℕ) (gates : List GateRecord) :
    get_state_evolution n gates = snapshots_spec gates := by
  rw [get_state_evolution, snapshots_spec, evo_foldl_snapshots]
  rw [List.range_succ_eq_map, List.map_cons, List.map_map]
  rw [List.singleton_append]
  congr 1

/-! ### Error propagation in the `run_circuit` build loop -/

lemma foldlM_error_of_mem (e : String) :
    ∀ (l : List GateRecord) (acc : List GateOp) (g : GateRecord),
      g ∈ l → apply_gate g = .error e →
      ∃ e', l.foldlM (fun acc g' => (apply_gate g').map (fun ops => acc ++ ops))
          acc = .error e' := by
  intro l
  induction l with
  | nil => intro acc g hg; exact absurd hg (List.not_mem_nil g)
  | cons a t ih =>
      intro acc g hg he
      rw [List.foldlM_cons]
      cases ha : apply_gate a with
      | error e'' => exact ⟨e'', rfl⟩
      | ok ops =>
          rcases List.mem_cons.mp hg with rfl | hgt
          · rw [ha] at he; exact absurd he (by simp)
          · obtain ⟨e', h⟩ := ih (acc ++ ops) g hgt he
            exact ⟨e', h⟩

lemma build_circuit_error (gates : List GateRecord) (g : GateRecord)
    (hg : g ∈ gates) (e : String) (he : apply_gate g = .error e) :
    ∃ e', build_circuit gates = .error e' := by
  apply foldlM_error_of_mem e (sorted_gates gates) [] g _ he
  exact List.mem_mergeSort.mpr hg

/-! ### Normalized probabilities: sum over a constant divisor -/

lemma sum_map_div (l : List ℕ) (d : ℚ) :
    (l.map (fun v : ℕ => (v : ℚ) / d)).sum = ((l.sum : ℕ) : ℚ) / d := by
  induction l with
  | nil => simp
  | cons a t ih =>
      simp only [List.map_cons, List.sum_cons, ih]
      push_cast
      rw [add_div]

/-! ### Evaluation helpers for the angle resolver -/

lemma get_angle_small (q : ℚ) (h : |(q : ℝ)| ≤ 2 * Real.pi) :
    get_angle (.num q) = .ok (q : ℝ) := by
  simp only [get_angle, py_float, rad_heuristic, if_pos h]

lemma get_angle_large (q : ℚ) (h : ¬ |(q : ℝ)| ≤ 2 * Real.pi) :
    get_angle (.num q) = .ok ((q : ℝ) * Real.pi / 180) := by
  simp only [get_angle, py_float, rad_heuristic, if_neg h]

/-- A parameter key whose Python `or`-chain contribution is skipped: the
key is absent, or its value is falsy. -/
def absent_or_falsy (ps : List (String × PValue)) (key : String) : Prop :=
  dict_get ps key = none ∨ ∃ v, dict_get ps key = some v ∧ py_truthy v = false

lemma py_or_of_truthy {o : Option PValue} {b v : PValue} (h : o = some v)
    (hv : py_truthy v = true) : py_or o b = v := by
  subst h
  simp [py_or, hv]

lemma py_or_of_skip {o : Option PValue} {b : PValue}
    (h : o = none ∨ ∃ v, o = some v ∧ py_truthy v = false) : py_or o b = b := by
  rcases h with h | ⟨v, hv, hf⟩
  · subst h; rfl
  · subst hv; simp [py_or, hf]

/-- The fixed gate vocabulary of `_apply_gate`; any other `type` tag falls
through to the silent `pass` branch. -/
def gate_vocabulary : List String :=
  ["h", "x", "y", "z", "s", "t", "rx", "ry", "rz", "p",
   "cnot", "cx", "cz", "swap", "toffoli", "ccx"]

/-! ### The claims -/

/-- Claim C1, counterexample: for a `swap` record with `qubit` absent,
`targets = [3]` and `controls = [5]`, the code resolves the operand pair
to `(3, 3)` — both operands taken from `targets[0]` — and not to
`(targets[0], controls[0]) = (3, 5)` as the claim states. -/
theorem C1_counterexample :
    apply_gate ⟨"swap", none, none, [], [3], [5]⟩ = .ok [.swap 3 3] ∧
    apply_gate ⟨"swap", none, none, [], [3], [5]⟩ ≠ .ok [.swap 3 5] := by
  constructor
  · simp [apply_gate]
  · simp [apply_gate]

/-- Claim C1, amended: for a `swap` record the first operand is `qubit` if
present, else `targets[0]`; the second operand is `targets[0]` whenever
`targets` is non-empty — regardless of where the first operand came from —
else `controls[0]`; normalization fails exactly when `targets` is empty
and (`qubit` is absent or `controls` is empty).  In particular, with
`qubit` absent and both `targets` and `controls` non-empty, the resolved
pair is `(targets[0], targets[0])`. -/
theorem C1_amended (g : GateRecord) (hty : g.type = "swap") :
    (∀ t ts, g.targets = t :: ts →
      apply_gate g = .ok [.swap (g.qubit.getD t) t]) ∧
    (∀ q c cs, g.qubit = some q → g.targets = [] → g.controls = c :: cs →
      apply_gate g = .ok [.swap q c]) ∧
    (g.targets = [] ∧ (g.qubit = none ∨ g.controls = []) ↔
      apply_gate g =
        .error "SWAP requires two qubits (qubit & targets[0] or targets[0] & controls[0])") := by
  obtain ⟨ty, qb, pos, ps, tg, ct⟩ := g
  simp only at hty
  subst hty
  refine ⟨?_, ?_, ?_⟩
  · intro t ts htg
    simp only at htg
    subst htg
    cases qb <;> simp [apply_gate, Option.getD]
  · intro q c cs hq htg hct
    simp only at hq htg hct
    subst hq; subst htg; subst hct
    simp [apply_gate]
  · cases tg <;> cases qb <;> cases ct <;> simp [apply_gate]

/-- Claim C1, witness of the amended claim: `swap` with `qubit = 0` and
`targets = [1]` resolves to the pair `(0, 1)`. -/
theorem C1_witness :
    apply_gate ⟨"swap", some 0, none, [], [1], []⟩ = .ok [.swap 0 1] :=
  (C1_amended ⟨"swap", some 0, none, [], [1], []⟩ rfl).1 1 [] rfl

/-- Claim C2, counterexample: for `rx` with `params = {theta: 0, angle: 2}`
the present `theta` of value `0` is falsy, so Python's `or`-chain skips it
and consults `angle`: the applied rotation angle is `2`, not `0`. -/
theorem C2_counterexample :
    apply_gate ⟨"rx", some 0, none,
      [("theta", .num 0), ("angle", .num 2)], [], []⟩ = .ok [.rx 2 0] ∧
    apply_gate ⟨"rx", some 0, none,
      [("theta", .num 0), ("angle", .num 2)], [], []⟩ ≠ .ok [.rx 0 0] := by
  have h2 : get_angle (.num 2) = .ok ((2 : ℚ) : ℝ) :=
    get_angle_small 2 (by
      rw [abs_of_nonneg (by norm_num)]
      push_cast
      nlinarith [Real.pi_gt_three])
  have hchain : theta_chain [("theta", .num 0), ("angle", .num 2)] = .num 2 := rfl
  constructor
  · simp [apply_gate, rotation, hchain, h2]
  · simp [apply_gate, rotation, hchain, h2]

/-- Claim C2, amended: the angle fed to `_get_angle` for `rx`/`ry` is the
first of `params.theta`, `params.angle` whose value is present and truthy,
else the literal `0`; for `rz`/`p` it is the first of `params.phi`,
`params.lambda`, `params.angle` present and truthy, else `0`.  A present
key with a falsy value (`0`, `0.0`, `""`) is skipped and the later keys in
the chain are consulted. -/
theorem C2_amended (g : GateRecord) :
    ((g.type = "rx" →
        apply_gate g = rotation .rx (theta_chain g.params) g.qubit) ∧
      (g.type = "ry" →
        apply_gate g = rotation .ry (theta_chain g.params) g.qubit) ∧
      (g.type = "rz" →
        apply_gate g = rotation .rz (phi_chain g.params) g.qubit) ∧
      (g.type = "p" →
        apply_gate g = rotation .p (phi_chain g.params) g.qubit)) ∧
    (∀ v, dict_get g.params "theta" = some v → py_truthy v = true →
      theta_chain g.params = v) ∧
    (absent_or_falsy g.params "theta" →
      ∀ v, dict_get g.params "angle" = some v → py_truthy v = true →
        theta_chain g.params = v) ∧
    (absent_or_falsy g.params "theta" → absent_or_falsy g.params "angle" →
      theta_chain g.params = .num 0) ∧
    (∀ v, dict_get g.params "phi" = some v → py_truthy v = true →
      phi_chain g.params = v) ∧
    (absent_or_falsy g.params "phi" →
      ∀ v, dict_get g.params "lambda" = some v → py_truthy v = true →
        phi_chain g.params = v) ∧
    (absent_or_falsy g.params "phi" → absent_or_falsy g.params "lambda" →
      ∀ v, dict_get g.params "angle" = some v → py_truthy v = true →
        phi_chain g.params = v) ∧
    (absent_or_falsy g.params "phi" → absent_or_falsy g.params "lambda" →
      absent_or_falsy g.params "angle" → phi_chain g.params = .num 0) := by
  refine ⟨⟨?_, ?_, ?_, ?_⟩, ?_, ?_, ?_, ?_, ?_, ?_, ?_⟩
  · intro h; simp [apply_gate, h]
  · intro h; simp [apply_gate, h]
  · intro h; simp [apply_gate, h]
  · intro h; simp [apply_gate, h]
  · intro v hv htr
    rw [theta_chain, py_or_of_truthy hv htr]
  · intro hth v hv htr
    rw [theta_chain, py_or_of_skip hth, py_or_of_truthy hv htr]
  · intro hth han
    rw [theta_chain, py_or_of_skip hth, py_or_of_skip han]
  · intro v hv htr
    rw [phi_chain, py_or_of_truthy hv htr]
  · intro hph v hv htr
    rw [phi_chain, py_or_of_skip hph, py_or_of_truthy hv htr]
  · intro hph hla v hv htr
    rw [phi_chain, py_or_of_skip hph, py_or_of_skip hla, py_or_of_truthy hv htr]
  · intro hph hla han
    rw [phi_chain, py_or_of_skip hph, py_or_of_skip hla, py_or_of_skip han]

/-- Claim C2, witness of the amended claim: a present truthy `theta` is
used. -/
theorem C2_witness :
    theta_chain [("theta", .num 1)] = .num 1 :=
  (C2_amended ⟨"rx", none, none, [("theta", .num 1)], [], []⟩).2.1
    (.num 1) rfl rfl

/-- Claim C3, counterexample: a non-integer position (the float `2.0`)
sorts as `0` in `run_circuit` but becomes its own column key `2` in
`get_state_evolution`, so the two paths do not share a single defaulting
rule for non-integer positions. -/
theorem C3_counterexample :
    evo_columns [⟨"h", some 0, some (.pfloat 2), [], [], []⟩] = [(2 : ℚ)] ∧
    sort_key ⟨"h", some 0, some (.pfloat 2), [], [], []⟩ = 0 ∧
    (2 : ℚ) ≠ 0 := by
  refine ⟨?_, by decide, by decide⟩
  simp [evo_columns, evo_key, PosVal.val, List.mergeSort]

/-- Claim C3, amended: both paths group the records into columns,
process the columns in strictly ascending key order and keep the records
of one column in their original input order; but the keys differ —
`run_circuit` keys a record by its position when it is an integer and by
`0` otherwise, while `get_state_evolution` defaults only an *absent*
position to `0` and uses any present value as its own column key. -/
theorem C3_amended (gates : List GateRecord) :
    sorted_gates gates = grouped_order sort_key gates ∧
    evolution_order gates = grouped_order evo_key gates ∧
    (sorted_keys (gates.map sort_key)).Pairwise (· < ·) ∧
    (evo_columns gates).Pairwise (· < ·) :=
  ⟨mergeSort_key_eq_grouped_order sort_key gates, rfl,
    sorted_keys_strict (gates.map sort_key),
    sorted_keys_strict (gates.map evo_key)⟩

/-- Claim C4, evaluation at the failing input: with memory requested and
the engine supplying the per-shot list `["00", "11"]`, the `memory` field
of the result is reduced to the first shot's bitstring `"00"` alone
(`mem[0]`), not the full ordered list; when the engine cannot supply
memory the field is `None` and no error is raised. -/
theorem C4_memory_first_shot_only :
    memory_out true (some ["00", "11"]) = some "00" ∧
    memory_out true none = none :=
  ⟨rfl, rfl⟩

/-- Claim C5: a gate that fails normalization aborts the whole
`run_circuit` build (the fold returns an error), while
`get_state_evolution` still returns the full snapshot sequence, in which
every snapshot consists exactly of the gate applications of the
successfully-normalized gates of the columns processed so far. -/
theorem C5_thm (gates : List GateRecord) (g : GateRecord) (hg : g ∈ gates)
    (e : String) (he : apply_gate g = .error e) :
    (∃ e', build_circuit gates = .error e') ∧
    ∀ n, get_state_evolution n gates = snapshots_spec gates :=
  ⟨build_circuit_error gates g hg e he,
    fun n => get_state_evolution_eq n gates⟩

/-- Claim C5, witness: a bare `cnot` record (no control, no target) fails
normalization; the build path errors, the evolution path still produces
its snapshots. -/
theorem C5_witness :
    (∃ e', build_circuit [⟨"cnot", none, none, [], [], []⟩] = .error e') ∧
    get_state_evolution 1 [⟨"cnot", none, none, [], [], []⟩] =
      snapshots_spec [⟨"cnot", none, none, [], [], []⟩] := by
  have h := C5_thm [⟨"cnot", none, none, [], [], []⟩]
    ⟨"cnot", none, none, [], [], []⟩ (List.mem_singleton.mpr rfl)
    "CNOT requires control (qubit/controls[0]) and targets[0]"
    (by simp [apply_gate])
  exact ⟨h.1, h.2 1⟩

/-- Claim C6: `_get_angle` fails on an unparsable input, returns a parsed
value of magnitude at most `2π` unchanged, and otherwise converts it from
degrees; concretely `3.0 ↦ 3.0`, `180 ↦ π`, `"not-a-number" ↦` error. -/
theorem C6_thm :
    (∀ v, py_float v = none → get_angle v = .error "Invalid angle value") ∧
    (∀ v q, py_float v = some q → |(q : ℝ)| ≤ 2 * Real.pi →
      get_angle v = .ok (q : ℝ)) ∧
    (∀ v q, py_float v = some q → ¬ |(q : ℝ)| ≤ 2 * Real.pi →
      get_angle v = .ok ((q : ℝ) * Real.pi / 180)) ∧
    get_angle (.num 3) = .ok 3 ∧
    get_angle (.num 180) = .ok Real.pi ∧
    get_angle (.str "not-a-number") = .error "Invalid angle value" := by
  refine ⟨?_, ?_, ?_, ?_, ?_, ?_⟩
  · intro v hv
    simp [get_angle, hv]
  · intro v q hv hq
    simp [get_angle, hv, rad_heuristic, if_pos hq]
  · intro v q hv hq
    simp [get_angle, hv, rad_heuristic, if_neg hq]
  · rw [get_angle_small 3 (by
      rw [abs_of_nonneg (by norm_num)]
      push_cast
      nlinarith [Real.pi_gt_three])]
    norm_num
  · rw [get_angle_large 180 (by
      rw [abs_of_nonneg (by norm_num)]
      push_cast
      nlinarith [Real.pi_lt_d2])]
    push_cast
    ring_nf
  · simp [get_angle, show py_float (.str "not-a-number") = none from by decide]

/-- Claim C6, witness: an unparsable string input fails with the invalid
angle error. -/
theorem C6_witness :
    py_float (PValue.str "xyz") = none ∧
    get_angle (PValue.str "xyz") = .error "Invalid angle value" :=
  ⟨by decide, C6_thm.1 _ (by decide)⟩

/-- Claim C7: the evolution walker returns exactly `1 +` (number of
distinct occupied position values) snapshots, and every processed column
is occupied (no empty columns are inserted for unoccupied positions). -/
theorem C7_thm (n : ℕ) (gates : List GateRecord) :
    (get_state_evolution n gates).length =
      1 + ((gates.map evo_key).dedup).length ∧
    ∀ k ∈ evo_columns gates, column_gates gates k ≠ [] := by
  constructor
  · rw [get_state_evolution_eq, snapshots_spec, List.length_map,
      List.length_range, evo_columns, List.length_mergeSort]
    omega
  · intro k hk
    have hmem : k ∈ gates.map evo_key := mem_sorted_keys.mp hk
    obtain ⟨g, hg, hkey⟩ := List.mem_map.mp hmem
    exact List.ne_nil_of_mem (List.mem_filter.mpr ⟨hg, by simp [hkey]⟩)

/-- Claim C7, witness: one `h` gate at the default position yields exactly
`2` snapshots. -/
theorem C7_witness :
    (get_state_evolution 1 [⟨"h", some 0, none, [], [], []⟩]).length = 2 := by
  have h := (C7_thm 1 [⟨"h", some 0, none, [], [], []⟩]).1
  simpa [evo_key] using h

/-- Claim C8: with a requested shot count of at least `1`, every
probability is the raw count divided by the requested shot count, and the
probabilities sum to at most `1` whenever the observed counts total at
most the requested shots. -/
theorem C8_thm (shots : ℕ) (hs : 1 ≤ shots) (counts : List (String × ℕ)) :
    probabilities shots counts =
      .ok (counts.map (fun kv => (kv.1, (kv.2 : ℚ) / (shots : ℚ)))) ∧
    ((counts.map Prod.snd).sum ≤ shots →
      (counts.map (fun kv => (kv.2 : ℚ) / (shots : ℚ))).sum ≤ 1) := by
  have hs0 : (shots : ℚ) ≠ 0 := Nat.cast_ne_zero.mpr (by omega)
  have htot : prob_total shots counts = (shots : ℚ) := by
    rw [prob_total, if_pos (by omega)]
  constructor
  · simp only [probabilities, htot]
    rw [if_neg (fun hc => hs0 hc.1)]
  · intro hsum
    have hmm : counts.map (fun kv => (kv.2 : ℚ) / (shots : ℚ)) =
        (counts.map Prod.snd).map (fun v : ℕ => (v : ℚ) / (shots : ℚ)) := by
      rw [List.map_map]
      rfl
    rw [hmm, sum_map_div, div_le_one (by exact_mod_cast Nat.lt_of_lt_of_le Nat.zero_lt_one hs)]
    exact_mod_cast hsum

/-- Claim C8, witness: four requested shots with observed counts
`{00: 3, 11: 1}` yield probabilities `3/4` and `1/4`, summing to `1 ≤ 1`. -/
theorem C8_witness :
    probabilities 4 [("00", 3), ("11", 1)] =
      .ok [("00", (3 : ℚ) / 4), ("11", (1 : ℚ) / 4)] ∧
    (3 : ℚ) / 4 + 1 / 4 ≤ 1 := by
  have h := C8_thm 4 (by norm_num) [("00", 3), ("11", 1)]
  have h2 := h.2 (by norm_num)
  constructor
  · simpa using h.1
  · simpa using h2

/-- Claim C9: a gate record whose `type` tag is outside the fixed gate
vocabulary is a silent no-op on both paths: its normalization succeeds
with no gate application, a column containing it behaves as if it were
absent, and the build fold over the remaining gates is unchanged. -/
theorem C9_thm (g : GateRecord) (h : g.type ∉ gate_vocabulary) :
    apply_gate g = .ok [] ∧
    (∀ qc col, apply_column qc (g :: col) = apply_column qc col) ∧
    (∀ (acc : List GateOp) (rest : List GateRecord),
      (g :: rest).foldlM
          (fun acc' g' => (apply_gate g').map (fun ops => acc' ++ ops)) acc =
        rest.foldlM
          (fun acc' g' => (apply_gate g').map (fun ops => acc' ++ ops)) acc) := by
  have hok : apply_gate g = .ok [] := by
    simp only [gate_vocabulary, List.mem_cons, List.not_mem_nil, or_false] at h
    push_neg at h
    obtain ⟨h1, h2, h3, h4, h5, h6, h7, h8, h9, h10,
      h11, h12, h13, h14, h15, h16⟩ := h
    simp [apply_gate, h1, h2, h3, h4, h5, h6, h7, h8, h9, h10,
      h11, h12, h13, h14, h15, h16]
  refine ⟨hok, ?_, ?_⟩
  · intro qc col
    simp [apply_column, hok]
  · intro acc rest
    rw [List.foldlM_cons, hok]
    show List.foldlM
        (fun acc' g' => (apply_gate g').map (fun ops => acc' ++ ops))
        (acc ++ []) rest = _
    rw [List.append_nil]

/-- Claim C9, witness: an unknown tag normalizes to the empty application
list. -/
theorem C9_witness :
    apply_gate ⟨"mygate", none, none, [], [], []⟩ = .ok [] :=
  (C9_thm ⟨"mygate", none, none, [], [], []⟩ (by decide)).1

/-- Claim C10, counterexample: called with `shots = 0` and the non-empty
counts mapping `{0: 0}`, the divisor is the observed total `0` and the
first executed division raises `ZeroDivisionError` — the probabilities do
not sum to `1`. -/
theorem C10_counterexample :
    probabilities 0 [("0", 0)] = .error "ZeroDivisionError: division by zero" :=
  rfl

/-- Claim C10, amended: with `shots = 0` the divisor is the sum of the
observed counts, and for every counts mapping with positive total the
probabilities sum to exactly `1`. -/
theorem C10_amended (counts : List (String × ℕ))
    (h : 0 < (counts.map Prod.snd).sum) :
    probabilities 0 counts =
      .ok (counts.map (fun kv =>
        (kv.1, (kv.2 : ℚ) / (((counts.map Prod.snd).sum : ℕ) : ℚ)))) ∧
    (counts.map (fun kv =>
      (kv.2 : ℚ) / (((counts.map Prod.snd).sum : ℕ) : ℚ))).sum = 1 := by
  have hS : (((counts.map Prod.snd).sum : ℕ) : ℚ) ≠ 0 :=
    Nat.cast_ne_zero.mpr (by omega)
  have htot : prob_total 0 counts = (((counts.map Prod.snd).sum : ℕ) : ℚ) := by
    rw [prob_total, if_neg (by simp)]
  constructor
  · simp only [probabilities, htot]
    rw [if_neg (fun hc => hS hc.1)]
  · have hmm : counts.map (fun kv =>
        (kv.2 : ℚ) / (((counts.map Prod.snd).sum : ℕ) : ℚ)) =
        (counts.map Prod.snd).map (fun v : ℕ =>
          (v : ℚ) / (((counts.map Prod.snd).sum : ℕ) : ℚ)) := by
      rw [List.map_map]
      rfl
    rw [hmm, sum_map_div, div_self hS]

/-- Claim C10, witness: `shots = 0` with counts `{0: 2, 1: 2}` yields
probabilities `2/4` each, summing to exactly `1`. -/
theorem C10_witness :
    probabilities 0 [("0", 2), ("1", 2)] =
      .ok [("0", (2 : ℚ) / 4), ("1", (2 : ℚ) / 4)] ∧
    (2 : ℚ) / 4 + 2 / 4 = 1 := by
  have h := C10_amended [("0", 2), ("1", 2)] (by norm_num)
  constructor
  · simpa using h.1
  · simpa using h.2

end QuantumFlow
